import Mathlib

/-!
Verification of the canaly repository (src/bits.py and src/canaly.py).

The Python code is shallowly embedded: byte buffers become `List Nat`
(each element is one byte), Python ints become `Nat` (all extracted
values are non-negative), Python floats arising from the linear scaling
`float(bits) * resolution + minimum` are modelled exactly as rationals,
and code that can raise an exception (IndexError from an out-of-range
byte access, KeyError from a missing dictionary key, ValueError from
`int(x, 16)`) returns `Option`, with `none` standing for the raised
exception.
-/

/-! ## Embedding of src/bits.py -/

/--
Inner `while pos < next_pos` loop of `split_bits` (src/bits.py lines
28-51).  The loop keeps a byte index `b_index` satisfying the invariant
`b_index == pos >> 3` (it starts as `ss[0] >> 3` with `pos = ss[0]` and
is incremented exactly when `pos` reaches the next byte boundary), so
the byte load `bs[b_index]` is embedded as `bs[pos >>> 3]?`, with `none`
for the IndexError raised when the index is past the end of the buffer.
`rem_len` always equals `next_pos - pos` (both drop by `length` each
iteration), so `to_pos = min (pos + (npos - pos)) max_pos` as in the
source.  Each iteration consumes `length ≥ 1` bits, so the loop runs at
most `npos - pos` times; it is embedded structurally on a counter `gas`
and every caller passes `gas = npos - pos`, which makes the `gas = 0`
case hit only when the loop guard `pos < npos` is already false.
Returns the accumulated bits together with the final cursor position.
-/
def innerGo (bs : List Nat) (gas pos npos bits : Nat) : Option (Nat × Nat) :=
  match gas with
  | 0 => some (bits, pos)
  | g + 1 =>
    if pos < npos then
      match bs[pos >>> 3]? with
      | none => none
      | some b =>
        let max_pos := ((pos >>> 3) + 1) <<< 3
        let to_pos := min (pos + (npos - pos)) max_pos
        let length := to_pos - pos
        let b1 := b &&& (0xFF >>> (pos % 8))
        let b2 := b1 >>> (max_pos - to_pos)
        innerGo bs g to_pos npos ((bits <<< length) + b2)
    else some (bits, pos)

/--
Outer `while pos < end_pos` loop of `split_bits` (src/bits.py lines
24-61).  `rest` is the list of still-unseen stop boundaries, i.e.
`ss[s_index + 1], ss[s_index + 2], ...`; the current chunk stops at
`min end_pos rest.head` (or at `end_pos` when no boundaries remain),
exactly as `next_pos = min(end_pos, ss[s_index + 1]) if (s_index + 1) <
len(ss) else end_pos` in the source.  After the last boundary the inner
loop drives `pos` to `end_pos` and the outer loop exits.
-/
def splitLoop (bs : List Nat) (pos endPos : Nat) (rest : List Nat) : Option (List Nat) :=
  match rest with
  | r :: rs =>
    if pos < endPos then
      match innerGo bs (min endPos r - pos) pos (min endPos r) 0 with
      | none => none
      | some (bits, pos2) =>
        match splitLoop bs pos2 endPos rs with
        | none => none
        | some tl => some (bits :: tl)
    else some []
  | [] =>
    if pos < endPos then
      match innerGo bs (endPos - pos) pos endPos 0 with
      | none => none
      | some (bits, _) => some [bits]
    else some []

/--
`split_bits(bs, ss, end=-1)` from src/bits.py.  The empty-offsets case
raises IndexError at `pos = ss[s_index]` (`none` here); otherwise
`end_pos = len(bs) << 3 if end < 0 else end` and the outer loop runs.
-/
def split_bits (bs : List Nat) (ss : List Nat) (e : Int) : Option (List Nat) :=
  match ss with
  | [] => none
  | s0 :: rest =>
    let endPos : Nat := if e < 0 then bs.length <<< 3 else e.toNat
    splitLoop bs s0 endPos rest

/--
`extract_bits(bs, s, l)` from src/bits.py: `split_bits(bs, [s], s + l)`
then `bits_list[0] if len(bits_list) > 0 else None`.  The outer `none`
is a propagated exception; `some none` is Python's `None` result.
-/
def extract_bits (bs : List Nat) (s l : Nat) : Option (Option Nat) :=
  match split_bits bs [s] ((s : Int) + (l : Int)) with
  | none => none
  | some bits_list => some bits_list.head?

/--
One hexadecimal digit as understood by Python's `int(x, 16)` on the
two-character slices taken by `hexstr_to_bytes`: `0`-`9`, `a`-`f`,
`A`-`F`; any other character raises ValueError (`none`).
-/
def hexDigit? (c : Char) : Option Nat :=
  if '0' ≤ c ∧ c ≤ '9' then some (c.toNat - '0'.toNat)
  else if 'a' ≤ c ∧ c ≤ 'f' then some (c.toNat - 'a'.toNat + 10)
  else if 'A' ≤ c ∧ c ≤ 'F' then some (c.toNat - 'A'.toNat + 10)
  else none

/-- `int(hex_string[i:i+2], 16)` on a two-character slice. -/
def parse_byte (c1 c2 : Char) : Option Nat :=
  match hexDigit? c1, hexDigit? c2 with
  | some h, some l => some (16 * h + l)
  | _, _ => none

/--
The `for i in range(0, len(hex_string), 2)` loop of `hexstr_to_bytes`,
taking two characters per step.  A trailing lone character (possible
only if the list has odd length, which the padding in
`hexstr_to_bytes` rules out) is the one-character slice `s[i:i+2]`,
parsed as a single digit by `int(_, 16)`.
-/
def hexPairs : List Char → Option (List Nat)
  | [] => some []
  | [c] => match hexDigit? c with
    | none => none
    | some d => some [d]
  | c1 :: c2 :: rest =>
    match parse_byte c1 c2, hexPairs rest with
    | some b, some bl => some (b :: bl)
    | _, _ => none

/--
`hexstr_to_bytes(hex_string)` from src/bits.py lines 78-91: a single
`'0'` is prepended when the length is odd, then the string is decoded
two characters per byte.
-/
def hexstr_to_bytes (s : String) : Option (List Nat) :=
  let cs := if s.length % 2 ≠ 0 then '0' :: s.data else s.data
  hexPairs cs

/-! ## Bit-numbering specification (spec.md section 3)

Bit position `i` addresses byte `i / 8`, and within that byte the most
significant bit first ("MSB-first, byte-major"); `rangeVal bs start
len` is the unsigned integer obtained by concatenating the bits of the
range `[start, start + len)` MSB-first.  These definitions follow the
spec's words and are the yardstick the code is compared against.
-/

/-- The bit of the buffer at position `i` (0 or 1), MSB-first byte-major. -/
def bitAt (bs : List Nat) (i : Nat) : Nat :=
  ((bs.getD (i / 8) 0) >>> (7 - i % 8)) &&& 1

/-- MSB-first value of the bit range `[start, start + len)`. -/
def rangeVal (bs : List Nat) (start : Nat) : Nat → Nat
  | 0 => 0
  | n + 1 => rangeVal bs start n * 2 + bitAt bs (start + n)

/--
Expected output of `split_bits` with boundaries `ss` and effective end
position `endPos`: one chunk per boundary strictly below `endPos`, the
chunk at boundary `a` stopping at the next boundary clamped to
`endPos` (or at `endPos` after the last boundary), each chunk valued
MSB-first.
-/
def splitSpec (bs : List Nat) (endPos : Nat) (ss : List Nat) : List Nat :=
  let ssF := ss.filter (fun s => decide (s < endPos))
  List.zipWith (fun a b => rangeVal bs a (min endPos b - a)) ssF (ssF.tail ++ [endPos])

/-! ## Hexadecimal re-encoding (spec.md section 8, hex round-trip)

The repository has no hexadecimal encoder of its own; the round-trip
property of the spec compares `hexstr_to_bytes` against re-encoding,
so the encoder is modelled from the spec's words.
-/

/-- Modelled from the spec: one hexadecimal digit character for a value below 16, uppercase. -/
def hexDigitChar (n : Nat) : Char :=
  if n < 10 then Char.ofNat ('0'.toNat + n) else Char.ofNat ('A'.toNat + (n - 10))

/-- Modelled from the spec: two hexadecimal digits for one byte, high digit first. -/
def byte_to_hex (b : Nat) : List Char :=
  [hexDigitChar (b / 16), hexDigitChar (b % 16)]

/--
Modelled from the spec: re-encoding a byte sequence to hexadecimal,
two uppercase digits per byte; the repository itself never encodes.
-/
def bytes_to_hexstr (bs : List Nat) : String :=
  String.mk (bs.map byte_to_hex).flatten

/-- The sixteen uppercase hexadecimal digit characters. -/
def hexUpperChars : List Char :=
  ['0', '1', '2', '3', '4', '5', '6', '7', '8', '9', 'A', 'B', 'C', 'D', 'E', 'F']

/-- Numeric value of a hexadecimal digit character (0 for non-digits). -/
def hexVal (c : Char) : Nat :=
  (hexDigit? c).getD 0

/-! ## Embedding of src/canaly.py -/

/--
A dynamically typed Python value as stored in the `bits` and `value`
slots of a decoded field: a non-negative int, a float (modelled
exactly as a rational), or `None`.
-/
inductive PyVal where
  | vint : Nat → PyVal
  | vfloat : ℚ → PyVal
  | vnone : PyVal
deriving DecidableEq, Repr

/-- The result of `extract_bits` as analyze_data stores it: the raw int, or `None`. -/
def pyOfOpt : Option Nat → PyVal
  | none => PyVal.vnone
  | some n => PyVal.vint n

/--
One entry of a record's `values` list in the signal-definition JSON
(spec.md section 6): the attributes that `load_stbl` and
`analyze_data` read.  `resolution` and `minimum` are modelled exactly
as rationals; `mode_signal` is the 0/1 flag and `mode_dependent` the
optional hexadecimal key string (empty when absent).
-/
structure FieldDef where
  name : String
  start : Nat
  length : Nat
  type : String
  resolution : ℚ
  minimum : ℚ
  unit : String
  desc : String
  mode_signal : Nat
  mode_dependent : String
deriving DecidableEq, Repr

/--
One decoded field dictionary produced by `analyze_data`.  The
discriminator entry (canaly.py lines 86-91) is built without a
`"unit"` key, so `unit` is an `Option` with `none` for the absent key.
-/
structure DecodedField where
  name : String
  bits : PyVal
  value : PyVal
  unit : Option String
  desc : String
deriving DecidableEq, Repr

/--
One entry of the signal table built by `load_stbl`.  The Python code
stores one of two dictionary shapes depending on `multi_mode`; here a
single structure carries both, with `mode = none`,
`mode_dependent_values = []` for the simple shape and `values = []`
for the variant shape (the decoder never reads the keys absent from
the corresponding Python dictionary).  `mode_dependent_values` is an
insertion-ordered association list with distinct keys, embedding the
Python dict keyed by ints.
-/
structure SchemaEntry where
  id : Nat
  name : String
  multi_mode : Bool
  mode : Option FieldDef
  mode_dependent_values : List (Nat × List FieldDef)
  values : List FieldDef
deriving DecidableEq, Repr

/-- One raw record of the signal-definition JSON list. -/
structure RawRecord where
  id : String
  name : String
  values : List FieldDef
deriving DecidableEq, Repr

/--
Python's `int(x, 16)` on an identifier or `mode_dependent` key string:
a string of hexadecimal digits to its value, ValueError (`none`)
otherwise.
-/
def intHex? (s : String) : Option Nat :=
  match s.data with
  | [] => none
  | cs => cs.foldl (fun acc c =>
      match acc, hexDigit? c with
      | some a, some d => some (16 * a + d)
      | _, _ => none) (some 0)

/--
`mode_dependent_values[k].append(v)`, creating the bucket when the key
is new (canaly.py lines 43-45): append to the bucket of `k` if
present, else add a new key at the end.
-/
def bucket_append (mdv : List (Nat × List FieldDef)) (k : Nat) (v : FieldDef) :
    List (Nat × List FieldDef) :=
  match mdv with
  | [] => [(k, [v])]
  | (k2, vs) :: rest =>
    if k2 = k then (k2, vs ++ [v]) :: rest else (k2, vs) :: bucket_append rest k v

/--
The `for v in r["values"]` loop of `load_stbl` (canaly.py lines
36-45), accumulating the `multi_mode` flag, the discriminator
definition `mode` (last writer wins, as in the source) and the
`mode_dependent_values` buckets; `none` when `int(v["mode_dependent"],
16)` raises.
-/
def scan_values : List FieldDef → Bool → Option FieldDef → List (Nat × List FieldDef) →
    Option (Bool × Option FieldDef × List (Nat × List FieldDef))
  | [], mm, mo, mdv => some (mm, mo, mdv)
  | v :: rest, mm, mo, mdv =>
    let mm2 := if v.mode_signal = 1 then true else mm
    let mo2 := if v.mode_signal = 1 then some v else mo
    if v.mode_dependent ≠ "" then
      match intHex? v.mode_dependent with
      | none => none
      | some k => scan_values rest mm2 mo2 (bucket_append mdv k v)
    else scan_values rest mm2 mo2 mdv

/-- The table entry `load_stbl` stores for one record (canaly.py lines 47-61). -/
def build_entry (canid : Nat) (r : RawRecord) : Option SchemaEntry :=
  match scan_values r.values false none [] with
  | none => none
  | some (mm, mo, mdv) =>
    if mm then
      some { id := canid, name := r.name, multi_mode := true, mode := mo,
             mode_dependent_values := mdv, values := [] }
    else
      some { id := canid, name := r.name, multi_mode := false, mode := none,
             mode_dependent_values := [], values := r.values }

/--
The `for r in json_list` loop of `load_stbl` (canaly.py lines 21-61)
with the table accumulated so far; the table is an insertion-ordered
association list keyed by the parsed identifier, and a record whose
identifier is already present is skipped before anything else of it is
looked at.
-/
def load_stbl_go : List RawRecord → List (Nat × SchemaEntry) → Option (List (Nat × SchemaEntry))
  | [], stbl => some stbl
  | r :: rest, stbl =>
    match intHex? r.id with
    | none => none
    | some canid =>
      if (stbl.lookup canid).isSome then load_stbl_go rest stbl
      else
        match build_entry canid r with
        | none => none
        | some entry => load_stbl_go rest (stbl ++ [(canid, entry)])

/-- `load_stbl` from canaly.py, starting from the empty table. -/
def load_stbl (recs : List RawRecord) : Option (List (Nat × SchemaEntry)) :=
  load_stbl_go recs []

/--
Value materialization for one paired (definition, raw integer)
(canaly.py lines 112-122): `value = float(bits) * resolution +
minimum` when the declared type is `"float"`, the raw integer
otherwise, and the field dictionary with `bits`, `unit` and `desc`.
-/
def decodeOne (d : FieldDef) (bits : Nat) : DecodedField :=
  { name := d.name, bits := PyVal.vint bits,
    value := if d.type = "float" then PyVal.vfloat ((bits : ℚ) * d.resolution + d.minimum)
             else PyVal.vint bits,
    unit := some d.unit, desc := d.desc }

/--
The `for bits in bits_list` loop of `analyze_data` (canaly.py lines
108-124), pairing each extracted integer with the definition at the
same index; the `bits_list` may be shorter than `ds`, in which case
the trailing definitions are simply never reached.  A `bits_list`
longer than `ds` would raise IndexError at `ds[i]` (`none`; unreachable
from `split_bits` output).
-/
def convert_fields : List Nat → List FieldDef → Option (List DecodedField)
  | [], _ => some []
  | _ :: _, [] => none
  | bits :: rest, d :: drest =>
    match convert_fields rest drest with
    | none => none
    | some tl => some (decodeOne d bits :: tl)

/--
Steps 2-4 of `analyze_data` (canaly.py lines 97-124): collect the
start position of every active definition, split the buffer, and
materialize the decoded fields.
-/
def convert_tail (bs : List Nat) (ds : List FieldDef) : Option (List DecodedField) :=
  match split_bits bs (ds.map FieldDef.start) (-1) with
  | none => none
  | some bits_list => convert_fields bits_list ds

/--
`analyze_data(bs, stbl)` from canaly.py lines 66-127.  In the variant
branch the discriminator is extracted (`none` propagates the
IndexError), appended as the first field using the raw value for both
`bits` and `value` and without a `"unit"` key, and the active
definitions are looked up by the raw value — a missing key is the
KeyError / UnknownMode failure, which discards everything including
the already-built discriminator field.  The Python code appends the
discriminator field before the lookup, but on the exception path
nothing is returned, so building the list afterwards is equivalent.
-/
def analyze_data (bs : List Nat) (stbl : SchemaEntry) : Option (List DecodedField) :=
  if stbl.multi_mode then
    match stbl.mode with
    | none => none
    | some mode_def =>
      match extract_bits bs mode_def.start mode_def.length with
      | none => none
      | some m =>
        match m.bind (fun mv => stbl.mode_dependent_values.lookup mv) with
        | none => none
        | some ds =>
          match convert_tail bs ds with
          | none => none
          | some rest =>
            some ({ name := mode_def.name, bits := pyOfOpt m, value := pyOfOpt m,
                    unit := none, desc := mode_def.desc } :: rest)
  else convert_tail bs stbl.values

/-! ## Concrete fixtures

Small schemas and fields used by the concrete checks below: a variant
schema with a 4-bit discriminator named `"M"` (declared unit `"V"`)
and a single mode `0` containing one 4-bit field `"A"`, a simple
three-field schema for one-, two- and three-byte payloads, and a
float-typed field with resolution 1/2 and minimum -10.
-/

def exModeDef : FieldDef :=
  { name := "M", start := 0, length := 4, type := "raw", resolution := 1, minimum := 0,
    unit := "V", desc := "mode", mode_signal := 1, mode_dependent := "" }

def exFieldA : FieldDef :=
  { name := "A", start := 4, length := 4, type := "raw", resolution := 1, minimum := 0,
    unit := "u", desc := "a", mode_signal := 0, mode_dependent := "0" }

def exVariantEntry : SchemaEntry :=
  { id := 1, name := "S", multi_mode := true, mode := some exModeDef,
    mode_dependent_values := [(0, [exFieldA])], values := [] }

def exField1 : FieldDef :=
  { name := "f1", start := 0, length := 8, type := "raw", resolution := 1, minimum := 0,
    unit := "u1", desc := "d1", mode_signal := 0, mode_dependent := "" }

def exField2 : FieldDef :=
  { name := "f2", start := 8, length := 8, type := "raw", resolution := 1, minimum := 0,
    unit := "u2", desc := "d2", mode_signal := 0, mode_dependent := "" }

def exField3 : FieldDef :=
  { name := "f3", start := 16, length := 8, type := "raw", resolution := 1, minimum := 0,
    unit := "u3", desc := "d3", mode_signal := 0, mode_dependent := "" }

def exSimpleEntry : SchemaEntry :=
  { id := 2, name := "T", multi_mode := false, mode := none, mode_dependent_values := [],
    values := [exField1, exField2, exField3] }

def exFloatField : FieldDef :=
  { name := "x", start := 0, length := 8, type := "float", resolution := 1/2, minimum := -10,
    unit := "u", desc := "d", mode_signal := 0, mode_dependent := "" }

def exRecordFirst : RawRecord := { id := "10", name := "first", values := [exField1] }

def exRecordSecond : RawRecord := { id := "10", name := "second", values := [exField2] }

/-! ## Correctness of the inner loop -/

theorem rangeVal_append (bs : List Nat) (p a : Nat) :
    ∀ b, rangeVal bs p (a + b) = rangeVal bs p a * 2 ^ b + rangeVal bs (p + a) b
  | 0 => by simp [rangeVal]
  | b + 1 => by
    have ih := rangeVal_append bs p a b
    have h1 : a + (b + 1) = (a + b) + 1 := rfl
    rw [h1, rangeVal, ih, rangeVal, pow_succ, ← Nat.add_assoc]
    ring

theorem rangeVal_in_byte (bs : List Nat) (pos : Nat) :
    ∀ len, pos % 8 + len ≤ 8 →
      rangeVal bs pos len = bs.getD (pos / 8) 0 / 2 ^ (8 - pos % 8 - len) % 2 ^ len
  | 0, _ => by simp [rangeVal, Nat.mod_one]
  | len + 1, h => by
    have ih := rangeVal_in_byte bs pos len (by omega)
    have e1 : (pos + len) / 8 = pos / 8 := by omega
    have e2 : (pos + len) % 8 = pos % 8 + len := by omega
    rw [rangeVal, ih, bitAt, e1, e2, Nat.shiftRight_eq_div_pow, Nat.and_one_is_mod]
    have e3 : 8 - pos % 8 - len = (7 - (pos % 8 + len)) + 1 := by omega
    have e4 : 8 - pos % 8 - (len + 1) = 7 - (pos % 8 + len) := by omega
    rw [e3, e4]
    set B := bs.getD (pos / 8) 0 with hB
    set s := 7 - (pos % 8 + len) with hs
    have hdd : B / 2 ^ (s + 1) = B / 2 ^ s / 2 := by
      rw [pow_succ, ← Nat.div_div_eq_div_mul]
    rw [hdd]
    set x := B / 2 ^ s with hx
    have hmm : x % (2 * 2 ^ len) = x % 2 + 2 * (x / 2 % 2 ^ len) := Nat.mod_mul
    have hp : (2 : Nat) ^ (len + 1) = 2 * 2 ^ len := by rw [pow_succ]; ring
    rw [hp, hmm]
    ring

theorem masked_byte_eq (bs : List Nat) (pos npos : Nat) (h : pos < npos) :
    (bs.getD (pos / 8) 0 &&& (255 >>> (pos % 8))) >>>
        ((pos / 8 + 1) * 8 - min npos ((pos / 8 + 1) * 8))
      = rangeVal bs pos (min npos ((pos / 8 + 1) * 8) - pos) := by
  have hr : pos % 8 < 8 := Nat.mod_lt _ (by norm_num)
  have hmax : pos < (pos / 8 + 1) * 8 := by omega
  have hrl : pos % 8 + (min npos ((pos / 8 + 1) * 8) - pos) ≤ 8 := by omega
  have h255 : (255 : Nat) >>> (pos % 8) = 2 ^ (8 - pos % 8) - 1 := by
    have hall : ∀ r, r < 8 → (255 : Nat) >>> r = 2 ^ (8 - r) - 1 := by decide
    exact hall _ hr
  rw [h255, Nat.and_pow_two_sub_one_eq_mod, Nat.shiftRight_eq_div_pow,
    rangeVal_in_byte bs pos _ hrl]
  have hexp : (pos / 8 + 1) * 8 - min npos ((pos / 8 + 1) * 8)
      = 8 - pos % 8 - (min npos ((pos / 8 + 1) * 8) - pos) := by omega
  rw [hexp]
  generalize hL : min npos ((pos / 8 + 1) * 8) - pos = L
  generalize hA : 8 - pos % 8 - L = A
  have h2 : 8 - pos % 8 = A + L := by omega
  rw [h2, pow_add, Nat.mod_mul_right_div_self]

theorem innerGo_step (bs : List Nat) (g pos npos bits : Nat) (hpn : pos < npos)
    (hidx : pos / 8 < bs.length) :
    innerGo bs (g + 1) pos npos bits
      = innerGo bs g (min npos ((pos / 8 + 1) * 8)) npos
          ((bits <<< (min npos ((pos / 8 + 1) * 8) - pos))
            + ((bs.getD (pos / 8) 0 &&& (255 >>> (pos % 8))) >>>
                ((pos / 8 + 1) * 8 - min npos ((pos / 8 + 1) * 8)))) := by
  have hp8 : pos >>> 3 = pos / 8 := by
    rw [Nat.shiftRight_eq_div_pow]
  have hsh : (pos / 8 + 1) <<< 3 = (pos / 8 + 1) * 8 := by
    rw [Nat.shiftLeft_eq]
  have hfull : pos + (npos - pos) = npos := by omega
  have hget : bs[pos >>> 3]? = some (bs.getD (pos / 8) 0) := by
    rw [hp8, List.getElem?_eq_getElem hidx]
    simp [List.getD_eq_getElem?_getD, List.getElem?_eq_getElem hidx]
  rw [innerGo, hget]
  simp only [hp8, hsh, hfull, if_pos hpn]

theorem innerGo_step_none (bs : List Nat) (g pos npos bits : Nat) (hpn : pos < npos)
    (hidx : bs.length ≤ pos / 8) :
    innerGo bs (g + 1) pos npos bits = none := by
  have hp8 : pos >>> 3 = pos / 8 := by
    rw [Nat.shiftRight_eq_div_pow]
  have hget : bs[pos >>> 3]? = none := by
    rw [hp8]; exact List.getElem?_eq_none hidx
  rw [innerGo, hget]
  simp only [if_pos hpn]

theorem innerGo_spec (gas : Nat) : ∀ (bs : List Nat) (pos npos bits : Nat),
    npos ≤ 8 * bs.length → npos - pos ≤ gas →
    innerGo bs gas pos npos bits
      = some (bits * 2 ^ (npos - pos) + rangeVal bs pos (npos - pos), max pos npos) := by
  induction gas with
  | zero =>
    intro bs pos npos bits _ hg
    have hle : npos ≤ pos := by omega
    have h0 : npos - pos = 0 := by omega
    simp [innerGo, h0, rangeVal, Nat.max_eq_left hle]
  | succ g ih =>
    intro bs pos npos bits hb hg
    by_cases hpn : pos < npos
    · have hidx : pos / 8 < bs.length := by omega
      rw [innerGo_step bs g pos npos bits hpn hidx]
      have htle : min npos ((pos / 8 + 1) * 8) ≤ npos := Nat.min_le_left _ _
      have htgt : pos < min npos ((pos / 8 + 1) * 8) := by omega
      rw [ih bs _ npos _ hb (by omega)]
      rw [masked_byte_eq bs pos npos hpn, Nat.shiftLeft_eq]
      have hmax1 : max (min npos ((pos / 8 + 1) * 8)) npos = npos := Nat.max_eq_right htle
      have hmax2 : max pos npos = npos := Nat.max_eq_right (by omega)
      rw [hmax1, hmax2]
      have hdecomp : npos - pos
          = (min npos ((pos / 8 + 1) * 8) - pos) + (npos - min npos ((pos / 8 + 1) * 8)) := by
        omega
      have hsum : pos + (min npos ((pos / 8 + 1) * 8) - pos) = min npos ((pos / 8 + 1) * 8) := by
        omega
      rw [hdecomp, rangeVal_append bs pos _ _, hsum, pow_add]
      ring_nf
    · have h0 : npos - pos = 0 := by omega
      have hle : npos ≤ pos := by omega
      simp [innerGo, hpn, h0, rangeVal, Nat.max_eq_left hle]

theorem innerGo_none (gas : Nat) : ∀ (bs : List Nat) (pos npos bits : Nat),
    npos - pos ≤ gas →
    (innerGo bs gas pos npos bits = none ↔ (pos < npos ∧ 8 * bs.length < npos)) := by
  induction gas with
  | zero =>
    intro bs pos npos bits hg
    have hle : npos ≤ pos := by omega
    simp [innerGo]
    omega
  | succ g ih =>
    intro bs pos npos bits hg
    by_cases hpn : pos < npos
    · by_cases hidx : pos / 8 < bs.length
      · rw [innerGo_step bs g pos npos bits hpn hidx]
        rw [ih bs _ npos _ (by omega)]
        constructor
        · rintro ⟨_, hL⟩; exact ⟨hpn, hL⟩
        · rintro ⟨_, hL⟩
          refine ⟨?_, hL⟩
          have : (pos / 8 + 1) * 8 ≤ 8 * bs.length := by omega
          omega
      · constructor
        · intro _; exact ⟨hpn, by omega⟩
        · intro _; exact innerGo_step_none bs g pos npos bits hpn (by omega)
    · simp [innerGo, hpn]

/-! ## Correctness of the outer loop -/

theorem splitLoop_spec (rest : List Nat) : ∀ (bs : List Nat) (pos endPos : Nat),
    endPos ≤ 8 * bs.length → List.Pairwise (· ≤ ·) (pos :: rest) →
    splitLoop bs pos endPos rest = some (splitSpec bs endPos (pos :: rest)) := by
  induction rest with
  | nil =>
    intro bs pos endPos hb _
    by_cases hpe : pos < endPos
    · have hin := innerGo_spec (endPos - pos) bs pos endPos 0 hb (le_refl _)
      simp only [Nat.zero_mul, Nat.zero_add] at hin
      simp only [splitLoop, if_pos hpe, hin]
      simp [splitSpec, hpe]
    · simp [splitLoop, hpe, splitSpec, Nat.not_lt.mp hpe]
  | cons r rs ih =>
    intro bs pos endPos hb hpw
    have hpr : pos ≤ r := (List.pairwise_cons.mp hpw).1 r (by simp)
    have hpw2 : List.Pairwise (· ≤ ·) (r :: rs) := (List.pairwise_cons.mp hpw).2
    by_cases hpe : pos < endPos
    · have hin := innerGo_spec (min endPos r - pos) bs pos (min endPos r) 0 (by omega)
        (le_refl _)
      simp only [Nat.zero_mul, Nat.zero_add] at hin
      have hmax : max pos (min endPos r) = min endPos r := by omega
      rw [hmax] at hin
      have hpw3 : List.Pairwise (· ≤ ·) (min endPos r :: rs) := by
        rw [List.pairwise_cons]
        refine ⟨fun x hx => ?_, (List.pairwise_cons.mp hpw2).2⟩
        have := (List.pairwise_cons.mp hpw2).1 x hx
        omega
      have hrec := ih bs (min endPos r) endPos hb hpw3
      simp only [splitLoop, if_pos hpe, hin, hrec]
      by_cases hre : r < endPos
      · have hmin : min endPos r = r := by omega
        simp [splitSpec, hpe, hre, hmin]
      · have hmin : min endPos r = endPos := by omega
        have hfil : rs.filter (fun s => decide (s < endPos)) = [] := by
          rw [List.filter_eq_nil_iff]
          intro a ha
          have := (List.pairwise_cons.mp hpw2).1 a ha
          simp
          omega
        simp [splitSpec, hpe, hre, hmin, hfil]
    · have hfil : (r :: rs).filter (fun s => decide (s < endPos)) = [] := by
        rw [List.filter_eq_nil_iff]
        intro a ha
        have hle : pos ≤ a := (List.pairwise_cons.mp hpw).1 a ha
        simp
        omega
      simp [splitLoop, hpe, splitSpec, hfil]

theorem splitLoop_none (rest : List Nat) : ∀ (bs : List Nat) (pos endPos : Nat),
    (splitLoop bs pos endPos rest = none ↔ (pos < endPos ∧ 8 * bs.length < endPos)) := by
  induction rest with
  | nil =>
    intro bs pos endPos
    by_cases hpe : pos < endPos
    · have hi := innerGo_none (endPos - pos) bs pos endPos 0 (le_refl _)
      simp only [splitLoop, if_pos hpe]
      cases hio : innerGo bs (endPos - pos) pos endPos 0 with
      | none =>
        simp only [hio]
        constructor
        · intro _; exact hi.mp hio
        · intro _; trivial
      | some v =>
        obtain ⟨bits, p2⟩ := v
        simp only [hio]
        constructor
        · intro h; exact absurd h (by simp)
        · intro hR; exact absurd (hi.mpr hR) (by simp [hio])
    · simp [splitLoop, hpe]
  | cons r rs ih =>
    intro bs pos endPos
    by_cases hpe : pos < endPos
    · simp only [splitLoop, if_pos hpe]
      by_cases hA : pos < min endPos r ∧ 8 * bs.length < min endPos r
      · have hio : innerGo bs (min endPos r - pos) pos (min endPos r) 0 = none :=
          (innerGo_none _ bs pos _ 0 (le_refl _)).mpr hA
        simp only [hio]
        constructor
        · intro _; exact ⟨hpe, by omega⟩
        · intro _; trivial
      · have hsome : ∃ v p2, innerGo bs (min endPos r - pos) pos (min endPos r) 0
            = some (v, p2) ∧ p2 = max pos (min endPos r) := by
          by_cases hplt : pos < min endPos r
          · have hle : min endPos r ≤ 8 * bs.length := by omega
            have hspec := innerGo_spec (min endPos r - pos) bs pos (min endPos r) 0 hle
              (le_refl _)
            exact ⟨_, _, hspec, rfl⟩
          · have hg : min endPos r - pos = 0 := by omega
            rw [hg]
            exact ⟨0, pos, rfl, by omega⟩
        obtain ⟨v, p2, hio, hp2⟩ := hsome
        cases hsl : splitLoop bs p2 endPos rs with
        | none =>
          have hr2 := (ih bs p2 endPos).mp hsl
          simp only [hio, hsl]
          constructor
          · intro _; exact ⟨hpe, hr2.2⟩
          · intro _; trivial
        | some tl =>
          simp only [hio, hsl]
          constructor
          · intro h; exact absurd h (by simp)
          · rintro ⟨_, hL⟩
            have hp2lt : p2 < endPos := by omega
            exact absurd ((ih bs p2 endPos).mpr ⟨hp2lt, hL⟩) (by simp [hsl])
    · simp [splitLoop, hpe]

/-! ## Top-level facts about split_bits and extract_bits -/

theorem split_bits_spec (bs : List Nat) (s0 : Nat) (rest : List Nat) (e : Nat)
    (hb : e ≤ 8 * bs.length) (hpw : List.Pairwise (· ≤ ·) (s0 :: rest)) :
    split_bits bs (s0 :: rest) (e : Int) = some (splitSpec bs e (s0 :: rest)) := by
  have hneg : ¬((e : Int) < 0) := by simp
  simp only [split_bits, if_neg hneg, Int.toNat_natCast]
  exact splitLoop_spec rest bs s0 e hb hpw

theorem split_bits_default_spec (bs : List Nat) (s0 : Nat) (rest : List Nat)
    (hpw : List.Pairwise (· ≤ ·) (s0 :: rest)) :
    split_bits bs (s0 :: rest) (-1) = some (splitSpec bs (8 * bs.length) (s0 :: rest)) := by
  have hneg : ((-1 : Int) < 0) := by norm_num
  have hsh : bs.length <<< 3 = 8 * bs.length := by rw [Nat.shiftLeft_eq]; ring
  simp only [split_bits, if_pos hneg, hsh]
  exact splitLoop_spec rest bs s0 _ (le_refl _) hpw

theorem split_bits_none_iff (bs : List Nat) (s0 : Nat) (rest : List Nat) (e : Int) :
    split_bits bs (s0 :: rest) e = none
      ↔ (s0 < (if e < 0 then 8 * bs.length else e.toNat)
          ∧ 8 * bs.length < (if e < 0 then 8 * bs.length else e.toNat)) := by
  have hsh : bs.length <<< 3 = 8 * bs.length := by rw [Nat.shiftLeft_eq]; ring
  simp only [split_bits, hsh]
  by_cases he : e < 0
  · simp only [if_pos he]
    exact splitLoop_none rest bs s0 _
  · simp only [if_neg he]
    exact splitLoop_none rest bs s0 _

theorem splitSpec_single (bs : List Nat) (s e : Nat) (h : s < e) :
    splitSpec bs e [s] = [rangeVal bs s (e - s)] := by
  simp [splitSpec, h]

theorem extract_bits_spec (bs : List Nat) (s l : Nat) (hl : 0 < l)
    (hb : s + l ≤ 8 * bs.length) :
    extract_bits bs s l = some (some (rangeVal bs s l)) := by
  have hcast : ((s : Int) + (l : Int)) = ((s + l : Nat) : Int) := by push_cast; ring
  rw [extract_bits, hcast, split_bits_spec bs s [] (s + l) hb (by simp),
    splitSpec_single bs s (s + l) (by omega)]
  have hsub : s + l - s = l := by omega
  simp [hsub]

theorem extract_bits_none_iff (bs : List Nat) (s l : Nat) :
    extract_bits bs s l = none ↔ (s < s + l ∧ 8 * bs.length < s + l) := by
  have hcast : ((s : Int) + (l : Int)) = ((s + l : Nat) : Int) := by push_cast; ring
  rw [extract_bits, hcast]
  have hiff := split_bits_none_iff bs s [] ((s + l : Nat) : Int)
  have hneg : ¬(((s + l : Nat) : Int) < 0) := by omega
  rw [if_neg hneg, Int.toNat_natCast] at hiff
  cases hsp : split_bits bs [s] ((s + l : Nat) : Int) with
  | none =>
    simp only [hsp]
    constructor
    · intro _; exact hiff.mp hsp
    · intro _; trivial
  | some bl =>
    simp only [hsp]
    constructor
    · intro h; exact absurd h (by simp)
    · intro hR; exact absurd (hiff.mpr hR) (by rw [hsp]; simp)

theorem zipWith_congr_mem {α β γ : Type} (f g : α → β → γ) :
    ∀ (l1 : List α) (l2 : List β), (∀ a ∈ l1, ∀ b ∈ l2, f a b = g a b) →
      List.zipWith f l1 l2 = List.zipWith g l1 l2
  | [], l2, _ => by simp
  | a :: l1, [], _ => by simp
  | a :: l1, b :: l2, h => by
    simp only [List.zipWith]
    rw [h a (by simp) b (by simp),
      zipWith_congr_mem f g l1 l2 (fun x hx y hy => h x (by simp [hx]) y (by simp [hy]))]

/-! ## Claim C1 -/

/--
Claim C1: for every byte buffer and every in-bounds bit range, each
integer produced by `split_bits` — and by `extract_bits` for a single
range — is the unsigned value of the bits of that range concatenated
MSB-first in byte-major numbering, regardless of byte alignment; the
chunk at `ss[i]` runs to `ss[i+1]` (to `end` for the last one).  In
particular `extract_bits [0xAB, 0xCD] 4 8 = 188`.
-/
theorem split_extract_msb_concat :
    (∀ (bs ss : List Nat) (e : Nat), ss ≠ [] → List.Chain' (· ≤ ·) ss →
        (∀ s ∈ ss, s < e) → e ≤ 8 * bs.length →
        split_bits bs ss (e : Int)
          = some (List.zipWith (fun a b => rangeVal bs a (b - a)) ss (ss.tail ++ [e])))
    ∧ (∀ (bs : List Nat) (s l : Nat), 0 < l → s + l ≤ 8 * bs.length →
        extract_bits bs s l = some (some (rangeVal bs s l)))
    ∧ extract_bits [0xAB, 0xCD] 4 8 = some (some 188) := by
  refine ⟨?_, extract_bits_spec, by decide⟩
  intro bs ss e hne hch hlt hb
  obtain ⟨s0, rest, rfl⟩ := List.exists_cons_of_ne_nil hne
  have hpw := List.chain'_iff_pairwise.mp hch
  rw [split_bits_spec bs s0 rest e hb hpw]
  have hfil : (s0 :: rest).filter (fun s => decide (s < e)) = s0 :: rest :=
    List.filter_eq_self.mpr (fun a ha => by simpa using hlt a ha)
  simp only [splitSpec, hfil]
  congr 1
  apply zipWith_congr_mem
  intro a _ b hb2
  have hble : b ≤ e := by
    rcases List.mem_append.mp hb2 with h1 | h1
    · exact le_of_lt (hlt b (List.mem_cons_of_mem s0 h1))
    · simp at h1; omega
  rw [min_eq_right hble]

theorem split_extract_msb_concat_witness :
    split_bits [0xAB, 0xCD] [0, 4] (12 : Int)
      = some (List.zipWith (fun a b => rangeVal [0xAB, 0xCD] a (b - a)) [0, 4] ([4] ++ [12])) :=
  split_extract_msb_concat.1 [0xAB, 0xCD] [0, 4] 12 (by decide)
    (by simp [List.chain'_cons]) (by decide) (by decide)

/-! ## Claim C2 -/

/--
Claim C2 counterexample: for the one-byte buffer `[0xAB]`, offsets
`[0, 8]` and `end = 8` — which satisfy the claim's preconditions, the
offsets being ascending, within bounds, and `max = 8 ≤ end = 8 ≤ 8` —
`split_bits` returns one integer, not `len(offsets) = 2`: the final
zero-length chunk whose start equals `end` is not emitted at all.
-/
theorem split_chunk_count_cex :
    split_bits [0xAB] [0, 8] (8 : Int) = some [171]
      ∧ (split_bits [0xAB] [0, 8] (8 : Int)).map List.length ≠ some 2 := by
  exact ⟨by decide, by decide⟩

/--
Claim C2 amended: under the claim's hypotheses `split_bits` succeeds
and returns one integer per offset strictly below `end` (offsets equal
to `end` are dropped, so the count is the number of offsets below
`end`, not always `len(offsets)`); the emitted chunks follow the
boundary pairs in order, and an emitted zero-length chunk (a boundary
pair with equal endpoints) yields 0.
-/
theorem split_chunk_count_amended :
    ∀ (bs ss : List Nat) (e : Nat), ss ≠ [] → List.Chain' (· ≤ ·) ss →
      (∀ s ∈ ss, s ≤ e) → e ≤ 8 * bs.length →
      ∃ l, split_bits bs ss (e : Int) = some l
        ∧ l = splitSpec bs e ss
        ∧ l.length = (ss.filter (fun s => decide (s < e))).length
        ∧ (∀ p ∈ List.zip (ss.filter (fun s => decide (s < e)))
              ((ss.filter (fun s => decide (s < e))).tail ++ [e]),
            p.2 = p.1 → rangeVal bs p.1 (min e p.2 - p.1) = 0) := by
  intro bs ss e hne hch hle hb
  obtain ⟨s0, rest, rfl⟩ := List.exists_cons_of_ne_nil hne
  have hpw := List.chain'_iff_pairwise.mp hch
  refine ⟨_, split_bits_spec bs s0 rest e hb hpw, rfl, ?_, ?_⟩
  · simp only [splitSpec]
    cases hF : (s0 :: rest).filter (fun s => decide (s < e)) with
    | nil => simp
    | cons x xs => simp [List.length_zipWith]
  · intro p _ hpe2
    have hmle : min e p.2 ≤ p.1 := by
      have := min_le_right e p.2
      omega
    have h0 : min e p.2 - p.1 = 0 := by omega
    rw [h0]
    rfl

theorem split_chunk_count_amended_witness :
    ∃ l, split_bits [0xAB] [0, 4, 4] (8 : Int) = some l
      ∧ l = splitSpec [0xAB] 8 [0, 4, 4]
      ∧ l.length = ([0, 4, 4].filter (fun s => decide (s < 8))).length
      ∧ (∀ p ∈ List.zip ([0, 4, 4].filter (fun s => decide (s < 8)))
            (([0, 4, 4].filter (fun s => decide (s < 8))).tail ++ [8]),
          p.2 = p.1 → rangeVal [0xAB] p.1 (min 8 p.2 - p.1) = 0) :=
  split_chunk_count_amended [0xAB] [0, 4, 4] 8 (by decide) (by simp [List.chain'_cons])
    (by decide) (by decide)

/-! ## Claim C3 -/

/--
Claim C3 counterexample: for the one-byte buffer `[0xAB]` the offset
`12` exceeds `8 * len = 8`, yet `split_bits` with the default end does
not fail: the offset is silently clamped to the end of the buffer and
the truncated result `[171]` is returned.
-/
theorem split_out_of_range_cex :
    split_bits [0xAB] [0, 12] (-1) = some [171] := by decide

/--
Claim C3 amended: `split_bits` fails (the embedded IndexError, i.e.
the spec's OutOfRange) exactly when the effective end position exceeds
`8 * len(buffer)` and the first offset lies below that end — offsets
beyond the effective end are clamped without error, and with the
default end no failure is possible; `extract_bits` with positive
length fails exactly when `start + length > 8 * len(buffer)`,
including for the empty buffer.
-/
theorem split_out_of_range_amended :
    (∀ (bs : List Nat) (s0 : Nat) (rest : List Nat) (e : Int),
        split_bits bs (s0 :: rest) e = none
          ↔ (s0 < (if e < 0 then 8 * bs.length else e.toNat)
              ∧ 8 * bs.length < (if e < 0 then 8 * bs.length else e.toNat)))
    ∧ (∀ (bs : List Nat) (s l : Nat), 0 < l →
        (extract_bits bs s l = none ↔ 8 * bs.length < s + l)) := by
  refine ⟨split_bits_none_iff, ?_⟩
  intro bs s l hl
  rw [extract_bits_none_iff]
  constructor
  · intro h; exact h.2
  · intro h; exact ⟨by omega, h⟩

theorem split_out_of_range_amended_witness :
    extract_bits [] 0 1 = none :=
  (split_out_of_range_amended.2 [] 0 1 (by decide)).mpr (by decide)

/-! ## Claim C5 -/

/--
Claim C5 counterexample: `extract_bits` on the empty buffer with
`start = 0` and `length = 0` returns Python's `None` — the explicit
"no data" indicator — rather than a value or an OutOfRange error, so
the indicator does occur for this signature: `split_bits` returns an
empty chunk list whenever the requested range is empty, not only when
the offsets list is empty.
-/
theorem extract_no_data_cex : extract_bits [] 0 0 = some none := by decide

/--
Claim C5 amended: for `length ≥ 1`, `extract_bits bs s l` agrees with
`split_bits bs [s] (s + l)` taking the single chunk — either both
succeed and extract returns exactly that chunk, or both fail; for
`length = 0` the split returns no chunks and extract returns the
explicit "no data" indicator instead of a value or an error.
-/
theorem extract_split_equiv_amended :
    (∀ (bs : List Nat) (s l : Nat), 0 < l →
        (∃ v, split_bits bs [s] ((s : Int) + (l : Int)) = some [v]
            ∧ extract_bits bs s l = some (some v))
        ∨ (split_bits bs [s] ((s : Int) + (l : Int)) = none ∧ extract_bits bs s l = none))
    ∧ (∀ (bs : List Nat) (s : Nat), extract_bits bs s 0 = some none) := by
  constructor
  · intro bs s l hl
    have hcast : ((s : Int) + (l : Int)) = ((s + l : Nat) : Int) := by push_cast; ring
    by_cases herr : 8 * bs.length < s + l
    · right
      constructor
      · rw [hcast]
        refine (split_bits_none_iff bs s [] _).mpr ?_
        have hneg : ¬(((s + l : Nat) : Int) < 0) := by omega
        rw [if_neg hneg, Int.toNat_natCast]
        exact ⟨by omega, herr⟩
      · exact (extract_bits_none_iff bs s l).mpr ⟨by omega, herr⟩
    · left
      refine ⟨rangeVal bs s l, ?_, extract_bits_spec bs s l hl (by omega)⟩
      rw [hcast, split_bits_spec bs s [] (s + l) (by omega) (by simp),
        splitSpec_single bs s (s + l) (by omega)]
      have hsub : s + l - s = l := by omega
      rw [hsub]
  · intro bs s
    have hcast : ((s : Int) + ((0 : Nat) : Int)) = ((s : Nat) : Int) := by push_cast; ring
    rw [extract_bits, hcast]
    have hneg : ¬(((s : Nat) : Int) < 0) := by omega
    simp only [split_bits, if_neg hneg, Int.toNat_natCast, splitLoop, lt_irrefl, if_false]
    rfl

theorem extract_split_equiv_amended_witness :
    (∃ v, split_bits [0xAB, 0xCD] [4] ((4 : Int) + (8 : Int)) = some [v]
        ∧ extract_bits [0xAB, 0xCD] 4 8 = some (some v))
    ∨ (split_bits [0xAB, 0xCD] [4] ((4 : Int) + (8 : Int)) = none
        ∧ extract_bits [0xAB, 0xCD] 4 8 = none) :=
  extract_split_equiv_amended.1 [0xAB, 0xCD] 4 8 (by decide)

/-! ## Decoder lemmas -/

theorem convert_fields_zip : ∀ (bl : List Nat) (ds : List FieldDef), bl.length ≤ ds.length →
    convert_fields bl ds = some (List.zipWith decodeOne ds bl)
  | [], ds, _ => by cases ds <;> simp [convert_fields]
  | b :: bl, [], h => by simp at h
  | b :: bl, d :: ds, h => by
    rw [convert_fields, convert_fields_zip bl ds (by simpa using h)]
    simp [List.zipWith]

theorem splitSpec_length_le (bs : List Nat) (e : Nat) (ss : List Nat) :
    (splitSpec bs e ss).length ≤ ss.length := by
  simp only [splitSpec, List.length_zipWith]
  calc min (ss.filter (fun s => decide (s < e))).length _
      ≤ (ss.filter (fun s => decide (s < e))).length := min_le_left _ _
    _ ≤ ss.length := List.length_filter_le _ _

/-! ## Claim C6 -/

/--
Claim C6: on a variant schema, when the discriminator's decoded raw
integer has no entry in `mode_dependent_values`, `analyze_data` fails
outright (the embedded KeyError, the spec's UnknownMode): no decoded
field sequence — not even the already-read discriminator field — is
returned.
-/
theorem unknown_mode_hard_error (bs : List Nat) (stbl : SchemaEntry) (md : FieldDef) (m : Nat)
    (h1 : stbl.multi_mode = true) (h2 : stbl.mode = some md)
    (h3 : extract_bits bs md.start md.length = some (some m))
    (h4 : stbl.mode_dependent_values.lookup m = none) :
    analyze_data bs stbl = none := by
  simp [analyze_data, h1, h2, h3, h4]

theorem unknown_mode_hard_error_witness :
    analyze_data [0x2F] exVariantEntry = none :=
  unknown_mode_hard_error [0x2F] exVariantEntry exModeDef 2 (by decide) (by decide)
    (by decide) (by decide)

/-! ## Claim C4 -/

/--
Claim C4 counterexample: on the variant schema `exVariantEntry`, whose
discriminator definition `exModeDef` declares `unit = "V"`, a
successful decode emits the discriminator as the first field with
`bits = value =` the raw integer and the description copied, but with
no unit at all (`none`): the `"unit"` key is absent from the
dictionary built at canaly.py lines 86-91, contradicting the claim
that the unit is copied from the discriminator's definition.
-/
theorem mode_field_unit_cex :
    analyze_data [0x0F] exVariantEntry
      = some [{ name := "M", bits := PyVal.vint 0, value := PyVal.vint 0,
                unit := none, desc := "mode" },
              { name := "A", bits := PyVal.vint 15, value := PyVal.vint 15,
                unit := some "u", desc := "a" }]
    ∧ exModeDef.unit = "V" ∧ (none : Option String) ≠ some "V" :=
  ⟨by decide, by decide, by decide⟩

/--
Claim C4 amended: whenever `analyze_data` succeeds on a variant
schema, its first output field is the discriminator's, with the name
and description copied from the discriminator definition and with
`bits` and `value` both the raw extracted integer — no
resolution/minimum scaling is applied even when the declared type is
float — but with no unit attached (the unit is not copied).
-/
theorem mode_field_first_amended (bs : List Nat) (stbl : SchemaEntry) (md : FieldDef)
    (fields : List DecodedField)
    (h1 : stbl.multi_mode = true) (h2 : stbl.mode = some md)
    (hsucc : analyze_data bs stbl = some fields) :
    ∃ m, extract_bits bs md.start md.length = some (some m)
      ∧ fields.head?
        = some { name := md.name, bits := PyVal.vint m, value := PyVal.vint m, unit := none, desc := md.desc } := by
  cases hex : extract_bits bs md.start md.length with
  | none => simp [analyze_data, h1, h2, hex] at hsucc
  | some m0 =>
    cases m0 with
    | none => simp [analyze_data, h1, h2, hex] at hsucc
    | some m =>
      cases hlk : stbl.mode_dependent_values.lookup m with
      | none => simp [analyze_data, h1, h2, hex, hlk] at hsucc
      | some ds =>
        cases hct : convert_tail bs ds with
        | none => simp [analyze_data, h1, h2, hex, hlk, hct] at hsucc
        | some rest =>
          simp [analyze_data, h1, h2, hex, hlk, hct, pyOfOpt] at hsucc
          refine ⟨m, rfl, ?_⟩
          rw [← hsucc]
          rfl

theorem mode_field_first_amended_witness :
    ∃ m, extract_bits [0x0F] exModeDef.start exModeDef.length = some (some m)
      ∧ ([{ name := "M", bits := PyVal.vint 0, value := PyVal.vint 0, unit := none, desc := "mode" },
          { name := "A", bits := PyVal.vint 15, value := PyVal.vint 15, unit := some "u", desc := "a" }] : List DecodedField).head?
        = some { name := exModeDef.name, bits := PyVal.vint m, value := PyVal.vint m, unit := none, desc := exModeDef.desc } :=
  mode_field_first_amended [0x0F] exVariantEntry exModeDef _ (by decide) (by decide) (by decide)

/-! ## Claim C7 -/

/--
Claim C7: on a simple schema whose (ascending) field sequence may be
longer than the payload supports, `analyze_data` succeeds and returns
exactly the leading fields that have a corresponding extracted chunk,
paired in schema-declaration order — the chunk list is `splitSpec`,
which keeps one chunk per start position strictly inside the payload,
and `zipWith` truncates at its length, silently omitting the trailing
definitions.  In particular the three-field schema `exSimpleEntry`
with starts `[0, 8, 16]` decoded against the one-byte payload `[0xAB]`
yields exactly the one field `f1`.
-/
theorem short_payload_truncation :
    (∀ (bs : List Nat) (stbl : SchemaEntry) (ds : List FieldDef),
        stbl.multi_mode = false → stbl.values = ds → ds ≠ [] →
        List.Chain' (· ≤ ·) (ds.map FieldDef.start) →
        analyze_data bs stbl
          = some (List.zipWith decodeOne ds (splitSpec bs (8 * bs.length) (ds.map FieldDef.start))))
    ∧ analyze_data [0xAB] exSimpleEntry
        = some [{ name := "f1", bits := PyVal.vint 171, value := PyVal.vint 171, unit := some "u1", desc := "d1" }] := by
  constructor
  · intro bs stbl ds h1 h2 hne hch
    have hmne : ds.map FieldDef.start ≠ [] := by
      intro h; exact hne (List.map_eq_nil_iff.mp h)
    obtain ⟨s0, rest, hcons⟩ := List.exists_cons_of_ne_nil hmne
    have hpw := List.chain'_iff_pairwise.mp hch
    rw [hcons] at hpw
    have hsdef : analyze_data bs stbl = convert_tail bs ds := by
      simp [analyze_data, h1, h2]
    rw [hsdef, convert_tail, hcons, split_bits_default_spec bs s0 rest hpw, ← hcons]
    exact convert_fields_zip _ ds
      (le_trans (splitSpec_length_le bs (8 * bs.length) (ds.map FieldDef.start))
        (by rw [List.length_map]))
  · decide

theorem short_payload_truncation_witness :
    analyze_data [0xAB, 0xCD] exSimpleEntry
      = some (List.zipWith decodeOne [exField1, exField2, exField3]
          (splitSpec [0xAB, 0xCD] (8 * 2) ([exField1, exField2, exField3].map FieldDef.start))) :=
  short_payload_truncation.1 [0xAB, 0xCD] exSimpleEntry [exField1, exField2, exField3]
    (by decide) (by decide) (by decide) (by simp [exField1, exField2, exField3, List.chain'_cons])

/-! ## Claim C8 -/

/--
Claim C8: each field of a successful pairing step carries `bits` equal
to its raw extracted integer and `value` equal to
`raw * resolution + minimum` when the definition's type is `"float"`
and to the raw integer unchanged otherwise, with unit and description
copied; and the concrete float field with resolution 1/2 and minimum
-10 on raw bits 20 yields value 0.
-/
theorem value_materialization :
    (∀ (bl : List Nat) (ds : List FieldDef) (out : List DecodedField),
        convert_fields bl ds = some out →
        ∀ i, i < out.length →
          ∃ d b, ds[i]? = some d ∧ bl[i]? = some b
            ∧ out[i]?
              = some { name := d.name, bits := PyVal.vint b,
                       value := if d.type = "float" then PyVal.vfloat ((b : ℚ) * d.resolution + d.minimum) else PyVal.vint b,
                       unit := some d.unit, desc := d.desc })
    ∧ convert_fields [20] [exFloatField]
        = some [{ name := "x", bits := PyVal.vint 20, value := PyVal.vfloat 0, unit := some "u", desc := "d" }] := by
  constructor
  · intro bl
    induction bl with
    | nil =>
      intro ds out hcv i hi
      cases ds <;> simp [convert_fields] at hcv <;> subst hcv <;> simp at hi
    | cons b rest ih =>
      intro ds out hcv i hi
      cases ds with
      | nil => simp [convert_fields] at hcv
      | cons d drest =>
        rw [convert_fields] at hcv
        cases htl : convert_fields rest drest with
        | none => rw [htl] at hcv; exact absurd hcv (by simp)
        | some tl =>
          rw [htl] at hcv
          have hout : decodeOne d b :: tl = out := Option.some_injective _ hcv
          cases i with
          | zero =>
            refine ⟨d, b, by simp, by simp, ?_⟩
            rw [← hout]
            simp [decodeOne]
          | succ j =>
            have hj : j < tl.length := by
              rw [← hout] at hi
              simpa using hi
            obtain ⟨d2, b2, hd2, hb2, ho2⟩ := ih drest tl htl j hj
            refine ⟨d2, b2, by simpa using hd2, by simpa using hb2, ?_⟩
            rw [← hout]
            simpa using ho2
  · simp [convert_fields, decodeOne, exFloatField]
    norm_num

theorem value_materialization_witness :
    ∃ d b, ([exFloatField][0]? : Option FieldDef) = some d ∧ ([20][0]? : Option Nat) = some b
      ∧ ([{ name := "x", bits := PyVal.vint 20, value := PyVal.vfloat 0, unit := some "u", desc := "d" }] : List DecodedField)[0]?
        = some { name := d.name, bits := PyVal.vint b,
                 value := if d.type = "float" then PyVal.vfloat ((b : ℚ) * d.resolution + d.minimum) else PyVal.vint b,
                 unit := some d.unit, desc := d.desc } :=
  value_materialization.1 [20] [exFloatField]
    [{ name := "x", bits := PyVal.vint 20, value := PyVal.vfloat 0, unit := some "u", desc := "d" }]
    (value_materialization.2) 0 (by decide)

/-! ## Claim C9 -/

theorem hexUpper_facts : ∀ c ∈ hexUpperChars,
    hexDigit? c = some (hexVal c) ∧ hexVal c < 16 ∧ hexDigitChar (hexVal c) = c := by decide

theorem hexPairs_roundtrip : ∀ (l : List Char), l.length % 2 = 0 →
    (∀ c ∈ l, c ∈ hexUpperChars) →
    ∃ bs, hexPairs l = some bs ∧ (bs.map byte_to_hex).flatten = l
  | [], _, _ => ⟨[], rfl, rfl⟩
  | [c], h, _ => by simp at h
  | c1 :: c2 :: rest, h, hall => by
    obtain ⟨bs, hbs, hjoin⟩ := hexPairs_roundtrip rest (by simp at h; omega)
      (fun c hc => hall c (by simp [hc]))
    obtain ⟨hd1, hlt1, hc1⟩ := hexUpper_facts c1 (hall c1 (by simp))
    obtain ⟨hd2, hlt2, hc2⟩ := hexUpper_facts c2 (hall c2 (by simp))
    refine ⟨(16 * hexVal c1 + hexVal c2) :: bs, ?_, ?_⟩
    · simp [hexPairs, parse_byte, hd1, hd2, hbs]
    · have hdiv : (16 * hexVal c1 + hexVal c2) / 16 = hexVal c1 := by omega
      have hmod : (16 * hexVal c1 + hexVal c2) % 16 = hexVal c2 := by omega
      simp [byte_to_hex, hjoin, hdiv, hmod, hc1, hc2]

/--
Claim C9: `hexstr_to_bytes` on an odd-length string behaves exactly as
if a single `'0'` were prepended (for every string, hexadecimal or
not); `hexstr_to_bytes "F"` equals `hexstr_to_bytes "0F"`; and for
every string of (uppercase) hexadecimal digits the decode succeeds and
re-encoding the bytes reproduces the original string up to that
leading-zero padding.  Odd length is never an error condition.
-/
theorem hex_odd_padding_roundtrip :
    (∀ s : String, s.length % 2 = 1 → hexstr_to_bytes s = hexstr_to_bytes ("0" ++ s))
    ∧ hexstr_to_bytes "F" = hexstr_to_bytes "0F"
    ∧ (∀ s : String, (∀ c ∈ s.data, c ∈ hexUpperChars) →
        ∃ bs, hexstr_to_bytes s = some bs
          ∧ bytes_to_hexstr bs = (if s.length % 2 = 1 then "0" ++ s else s)) := by
  refine ⟨?_, by decide, ?_⟩
  · intro s h
    have hlen : ¬(("0" ++ s).length % 2 ≠ 0) := by
      rw [String.length_append]
      have h0 : ("0" : String).length = 1 := rfl
      rw [h0]
      omega
    have hdata : ("0" ++ s).data = '0' :: s.data := by
      rw [String.data_append]
      rfl
    simp only [hexstr_to_bytes, hdata]
    rw [if_pos (by omega : s.length % 2 ≠ 0), if_neg hlen]
  · intro s hall
    have hsdata : s.length = s.data.length := rfl
    by_cases hodd : s.length % 2 = 1
    · have hmem : ∀ c ∈ ('0' :: s.data), c ∈ hexUpperChars := by
        intro c hc
        rcases List.mem_cons.mp hc with h | h
        · rw [h]; decide
        · exact hall c h
      obtain ⟨bs, h1, h2⟩ := hexPairs_roundtrip ('0' :: s.data)
        (by rw [List.length_cons, ← hsdata]; omega) hmem
      refine ⟨bs, by simp [hexstr_to_bytes, hodd, h1], ?_⟩
      rw [if_pos hodd]
      apply String.ext
      rw [String.data_append]
      show (bs.map byte_to_hex).flatten = "0".data ++ s.data
      rw [h2]
      simp
    · obtain ⟨bs, h1, h2⟩ := hexPairs_roundtrip s.data (by rw [← hsdata]; omega) hall
      have hev : s.length % 2 = 0 := by omega
      refine ⟨bs, by simp [hexstr_to_bytes, hev, h1], ?_⟩
      rw [if_neg hodd]
      apply String.ext
      show (bs.map byte_to_hex).flatten = s.data
      exact h2

theorem hex_odd_padding_roundtrip_witness :
    ∃ bs, hexstr_to_bytes "ABC" = some bs
      ∧ bytes_to_hexstr bs = (if ("ABC" : String).length % 2 = 1 then "0" ++ "ABC" else "ABC") :=
  (hex_odd_padding_roundtrip.2.2) "ABC" (by decide)

/-! ## Claim C10 -/

theorem lookup_append (c : Nat) : ∀ (l1 l2 : List (Nat × SchemaEntry)),
    (l1 ++ l2).lookup c = (l1.lookup c).or (l2.lookup c)
  | [], l2 => by simp [List.lookup]
  | (k, v) :: t, l2 => by
    cases hck : c == k with
    | true => simp [List.lookup, hck]
    | false => simp [List.lookup, hck, lookup_append c t l2]

theorem load_stbl_go_cons_none (r : RawRecord) (rest : List RawRecord)
    (stbl : List (Nat × SchemaEntry)) (hparse : intHex? r.id = none) :
    load_stbl_go (r :: rest) stbl = none := by
  rw [load_stbl_go, hparse]

theorem load_stbl_go_cons_some (r : RawRecord) (rest : List RawRecord)
    (stbl : List (Nat × SchemaEntry)) (canid : Nat) (hparse : intHex? r.id = some canid) :
    load_stbl_go (r :: rest) stbl
      = if (stbl.lookup canid).isSome then load_stbl_go rest stbl
        else
          match build_entry canid r with
          | none => none
          | some entry => load_stbl_go rest (stbl ++ [(canid, entry)]) := by
  rw [load_stbl_go, hparse]

theorem load_stbl_go_lookup : ∀ (recs : List RawRecord) (stbl t : List (Nat × SchemaEntry)),
    load_stbl_go recs stbl = some t → ∀ c : Nat,
      t.lookup c
        = (stbl.lookup c).or
            ((recs.find? (fun r => intHex? r.id == some c)).bind (build_entry c))
  | [], stbl, t, h, c => by
    simp [load_stbl_go] at h
    subst h
    cases stbl.lookup c <;> simp
  | r :: rest, stbl, t, h, c => by
    cases hparse : intHex? r.id with
    | none => rw [load_stbl_go_cons_none r rest stbl hparse] at h; exact absurd h (by simp)
    | some canid =>
      rw [load_stbl_go_cons_some r rest stbl canid hparse] at h
      by_cases hin : (stbl.lookup canid).isSome
      · rw [if_pos hin] at h
        rw [load_stbl_go_lookup rest stbl t h c]
        cases hc : stbl.lookup c with
        | some e => simp
        | none =>
          have hne : ¬(canid = c) := by
            intro heq; rw [heq, hc] at hin; simp at hin
          have hpr : ¬((fun r => intHex? r.id == some c) r = true) := by
            simp [hparse, hne]
          have hfind : List.find? (fun r => intHex? r.id == some c) (r :: rest)
              = List.find? (fun r => intHex? r.id == some c) rest :=
            List.find?_cons_of_neg rest hpr
          rw [hfind]
      · rw [if_neg hin] at h
        cases hbuild : build_entry canid r with
        | none => rw [hbuild] at h; exact absurd h (by simp)
        | some entry =>
          rw [hbuild] at h
          rw [load_stbl_go_lookup rest (stbl ++ [(canid, entry)]) t h c,
            lookup_append c stbl [(canid, entry)]]
          by_cases hceq : c = canid
          · subst hceq
            have hsn : stbl.lookup c = none := by
              cases hx : stbl.lookup c with
              | none => rfl
              | some e => rw [hx] at hin; simp at hin
            have hone : ([(c, entry)] : List (Nat × SchemaEntry)).lookup c = some entry := by
              simp [List.lookup]
            have hpr : (fun r => intHex? r.id == some c) r = true := by
              simp [hparse]
            have hfind : List.find? (fun r => intHex? r.id == some c) (r :: rest) = some r :=
              List.find?_cons_of_pos rest hpr
            rw [hsn, hfind]
            simp [hone, hbuild]
          · have hone : ([(canid, entry)] : List (Nat × SchemaEntry)).lookup c = none := by
              have : ¬(c == canid) = true := by simp [hceq]
              simp [List.lookup, this]
            have hpr : ¬((fun r => intHex? r.id == some c) r = true) := by
              simp [hparse]
              exact fun heq => hceq heq.symm
            have hfind : List.find? (fun r => intHex? r.id == some c) (r :: rest)
                = List.find? (fun r => intHex? r.id == some c) rest :=
              List.find?_cons_of_neg rest hpr
            rw [hone, hfind]
            cases hc : stbl.lookup c <;> simp

theorem load_stbl_go_append : ∀ (l1 l2 : List RawRecord) (stbl : List (Nat × SchemaEntry)),
    load_stbl_go (l1 ++ l2) stbl
      = (load_stbl_go l1 stbl).bind (fun t => load_stbl_go l2 t)
  | [], l2, stbl => by simp [load_stbl_go]
  | r :: rest, l2, stbl => by
    rw [List.cons_append]
    cases hparse : intHex? r.id with
    | none =>
      rw [load_stbl_go_cons_none r (rest ++ l2) stbl hparse,
        load_stbl_go_cons_none r rest stbl hparse]
      rfl
    | some canid =>
      rw [load_stbl_go_cons_some r (rest ++ l2) stbl canid hparse,
        load_stbl_go_cons_some r rest stbl canid hparse]
      by_cases hin : (stbl.lookup canid).isSome
      · rw [if_pos hin, if_pos hin]
        exact load_stbl_go_append rest l2 stbl
      · rw [if_neg hin, if_neg hin]
        cases build_entry canid r with
        | none => simp
        | some entry => exact load_stbl_go_append rest l2 _

/--
Claim C10: a schema table built by `load_stbl` keeps, for each message
identifier, exactly the entry built from the first record whose
identifier parses to it — looking up any identifier in the finished
table gives the entry built from the first matching record (or nothing
when no record matches) — and appending a further record whose
identifier is already a key of the table leaves the table bit-for-bit
unchanged: the duplicate is skipped entirely.
-/
theorem stbl_first_wins :
    (∀ (recs : List RawRecord) (t : List (Nat × SchemaEntry)),
        load_stbl recs = some t → ∀ c : Nat,
          t.lookup c = (recs.find? (fun r => intHex? r.id == some c)).bind (build_entry c))
    ∧ (∀ (recs : List RawRecord) (r : RawRecord) (t : List (Nat × SchemaEntry)) (c : Nat),
        load_stbl recs = some t → intHex? r.id = some c → (t.lookup c).isSome →
        load_stbl (recs ++ [r]) = some t) := by
  constructor
  · intro recs t h c
    have := load_stbl_go_lookup recs [] t h c
    simpa [List.lookup] using this
  · intro recs r t c h hparse hin
    have h2 : load_stbl_go recs [] = some t := h
    rw [load_stbl, load_stbl_go_append recs [r] [], h2]
    show load_stbl_go [r] t = some t
    rw [load_stbl_go_cons_some r [] t c hparse, if_pos hin]
    rfl

theorem stbl_first_wins_witness :
    ∀ c : Nat,
      ([(16, { id := 16, name := "first", multi_mode := false, mode := none, mode_dependent_values := [], values := [exField1] })] : List (Nat × SchemaEntry)).lookup c
        = (([exRecordFirst, exRecordSecond].find? (fun r => intHex? r.id == some c)).bind (build_entry c)) :=
  stbl_first_wins.1 [exRecordFirst, exRecordSecond]
    [(16, { id := 16, name := "first", multi_mode := false, mode := none, mode_dependent_values := [], values := [exField1] })]
    (by decide)
